import Mathlib

/-!
Shallow embedding of the goal-arbitration engine
(`core/goalModule.py`, `core/arbitrator.py`, `core/RecursiveGoalManager.py`).

Python floats are modelled as rationals (`ℚ`); the numeric literals of the
source (0.1, 0.5, 1e-4, ...) are exact rationals.  A Python exception is an
`Except` error value; the CPython recursion limit is modelled by a fuel
parameter, exhaustion of which is `PyErr.recursionError`.  A goal object
graph (which may be made cyclic by mutating `dependencies`, as the repo's
`test_goal_system.py` does) is modelled as a name-keyed association list of
nodes, so that cyclic reference structures are representable.
-/

namespace RGSA

/-- A Python exception, as visible at the evaluation boundary. -/
inductive PyErr where
  | recursionError
  | userError
  | keyError
  | valueError
deriving DecidableEq, Repr

/-- A Python `dict` from string keys to float values (state dicts, history). -/
abbrev PState := List (String × ℚ)

/-- `d.get(k, default)` on a string-keyed dict. -/
def getD (st : PState) (k : String) (d : ℚ) : ℚ :=
  match st.find? (fun p => p.1 == k) with
  | some p => p.2
  | none => d

/-- `d[k] = v` on a string-keyed dict: replace the existing binding in place,
or append a new one (CPython dicts preserve insertion order). -/
def histSet : PState → String → ℚ → PState
  | [], k, v => [(k, v)]
  | (k', v') :: rest, k, v =>
      if k' = k then (k, v) :: rest else (k', v') :: histSet rest k v

/-- One `Goal` object of `core/goalModule.py`: urgency and utility callables
(either of which may raise), dependency references (by name, into the heap
graph) and the attached trait names (`TraitSet` membership is by name). -/
structure GoalNode where
  urgency_fn : ℚ → Except PyErr ℚ
  utility_fn : PState → Except PyErr ℚ
  dependencies : List String
  traits : List String

/-- The heap of goal objects, keyed by `Goal.name`. -/
abbrev GoalGraph := List (String × GoalNode)

def findNode (g : GoalGraph) (name : String) : Option GoalNode :=
  match g.find? (fun p => p.1 == name) with
  | some p => some p.2
  | none => none

/-- `self.traits.has_trait(T)`: membership of the trait name. -/
def hasTrait (nd : GoalNode) (tr : String) : Bool := nd.traits.contains tr

/-- `Goal.urgency` (goalModule.py lines 27-38): the raw urgency function,
then the URGENCY_SENSITIVE multiplier, then the RISK_AVERSE multiplier.
Note the source reads `state.get("risk", 0.0) if state else 0.0`: an empty
dict is falsy, so the risk defaults to 0 on an empty state. -/
def urgency (nd : GoalNode) (t : ℚ) (st : PState) : Except PyErr ℚ :=
  match nd.urgency_fn t with
  | .error e => .error e
  | .ok b0 =>
      let b1 := if hasTrait nd "URGENCY_SENSITIVE" then b0 * (1 + (1/2) * (1 - b0)) else b0
      let b2 := if hasTrait nd "RISK_AVERSE" then
          b1 * max (1/10) (1 - (if st.isEmpty then 0 else getD st "risk" 0))
        else b1
      .ok b2

/-- `Goal.utility` (goalModule.py lines 40-51): the raw utility function,
then the EXPLORATORY multiplier, then the RISK_AVERSE multiplier. -/
def utility (nd : GoalNode) (st : PState) : Except PyErr ℚ :=
  match nd.utility_fn st with
  | .error e => .error e
  | .ok b0 =>
      let b1 := if hasTrait nd "EXPLORATORY" then b0 * (1 + (1/2) * getD st "novelty" (1/2)) else b0
      let b2 := if hasTrait nd "RISK_AVERSE" then b1 * getD st "safety_level" 1 else b1
      .ok b2

/-- The `trait_mod` accumulation inside `Goal.effective_value`
(goalModule.py lines 66-77). -/
def traitMod (nd : GoalNode) (st : PState) (base : ℚ) : ℚ :=
  (if hasTrait nd "URGENCY_SENSITIVE" then (1/10) * base else 0)
  + (if hasTrait nd "RISK_AVERSE" then -((1/5) * getD st "risk" 0 * base) else 0)
  + (if hasTrait nd "EXPLORATORY" then (3/20) * getD st "novelty" (1/2) * base else 0)

/-- A Python list comprehension `[f(x) for x in xs]` where `f` may raise:
elements are evaluated left to right and the first exception propagates. -/
def evalList (f : String → Except PyErr ℚ) : List String → Except PyErr (List ℚ)
  | [] => .ok []
  | d :: ds =>
      match f d with
      | .error e => .error e
      | .ok v =>
          match evalList f ds with
          | .error e => .error e
          | .ok vs => .ok (v :: vs)

/-- `Goal.dependency_value` (goalModule.py lines 53-57): 0.0 with no
dependencies, otherwise the arithmetic mean of the recursively computed
effective values, with `ev` standing for the recursive call. -/
def dependency_value (ev : String → Except PyErr ℚ) (deps : List String) : Except PyErr ℚ :=
  if deps.isEmpty then .ok 0
  else
    match evalList ev deps with
    | .error e => .error e
    | .ok vs => .ok (vs.sum / (vs.length : ℚ))

/-- `Goal.effective_value` (goalModule.py lines 62-79):
`base + dep_bonus + trait_mod` with `base = urgency(t) * utility(state)`.
The source recursion carries no visited set and no exception handler, so
recursion is bounded only by the interpreter's stack (the fuel), and any
exception from a urgency/utility callable propagates. -/
def effective_value : Nat → GoalGraph → String → ℚ → PState → Except PyErr ℚ
  | 0, _, _, _, _ => .error .recursionError
  | fuel+1, g, name, t, st =>
      match findNode g name with
      | none => .error .keyError
      | some nd =>
          match urgency nd t st with
          | .error e => .error e
          | .ok u =>
              match utility nd st with
              | .error e => .error e
              | .ok ut =>
                  match dependency_value (fun d => effective_value fuel g d t st) nd.dependencies with
                  | .error e => .error e
                  | .ok depBonus => .ok (u * ut + depBonus + traitMod nd st (u * ut))

/-- A urgency/utility callable that always returns a constant. -/
def constFn (q : ℚ) : ℚ → Except PyErr ℚ := fun _ => .ok q

/-- A utility callable that always returns a constant. -/
def constUtil (q : ℚ) : PState → Except PyErr ℚ := fun _ => .ok q

/-- A trait-free leaf goal with constant urgency `u` and utility `v`. -/
def leafNode (u v : ℚ) : GoalNode :=
  { urgency_fn := constFn u, utility_fn := constUtil v, dependencies := [], traits := [] }

/-- Node `G1` of the cyclic two-goal graph of
`test_goal_system.py::test_cycle_detection`. -/
def cycleG1 : GoalNode :=
  { urgency_fn := constFn 1, utility_fn := constUtil 1, dependencies := ["G2"], traits := [] }

/-- Node `G2` of the cyclic two-goal graph. -/
def cycleG2 : GoalNode :=
  { urgency_fn := constFn 1, utility_fn := constUtil 1, dependencies := ["G1"], traits := [] }

/-- The cyclic graph `G1 -> G2 -> G1` built by the repo's own cycle test. -/
def cycleGraph : GoalGraph := [("G1", cycleG1), ("G2", cycleG2)]

lemma dependency_value_single_error (ev : String → Except PyErr ℚ) (d : String) (e : PyErr)
    (h : ev d = .error e) : dependency_value ev [d] = .error e := by
  simp [dependency_value, evalList, h]

/-- C1: `effective_value` on the cyclic graph `G1 <-> G2` of the repo's own
`test_cycle_detection` never terminates normally: for every recursion budget
it aborts with a `RecursionError` instead of returning a finite value, because
the source code carries no visited set. -/
theorem c1_cycle_eval_recursion_error (fuel : Nat) (t : ℚ) (st : PState) :
    effective_value fuel cycleGraph "G1" t st = .error .recursionError ∧
    effective_value fuel cycleGraph "G2" t st = .error .recursionError := by
  induction fuel with
  | zero => exact ⟨rfl, rfl⟩
  | succ n ih =>
      constructor
      · have hd : dependency_value (fun d => effective_value n cycleGraph d t st) ["G2"]
            = .error .recursionError :=
          dependency_value_single_error _ _ _ ih.2
        simp only [effective_value,
          show findNode cycleGraph "G1" = some cycleG1 from rfl,
          show urgency cycleG1 t st = Except.ok 1 from rfl,
          show utility cycleG1 st = Except.ok 1 from rfl,
          show cycleG1.dependencies = ["G2"] from rfl, hd]
      · have hd : dependency_value (fun d => effective_value n cycleGraph d t st) ["G1"]
            = .error .recursionError :=
          dependency_value_single_error _ _ _ ih.1
        simp only [effective_value,
          show findNode cycleGraph "G2" = some cycleG2 from rfl,
          show urgency cycleG2 t st = Except.ok 1 from rfl,
          show utility cycleG2 st = Except.ok 1 from rfl,
          show cycleG2.dependencies = ["G1"] from rfl, hd]

/-- A goal whose urgency callable raises (a `userError`). -/
def raisingNode : GoalNode :=
  { urgency_fn := fun _ => .error .userError, utility_fn := constUtil 1,
    dependencies := [], traits := [] }

/-- A well-behaved goal depending on the raising goal `R`. -/
def parentNode : GoalNode :=
  { urgency_fn := constFn 1, utility_fn := constUtil 1, dependencies := ["R"], traits := [] }

/-- The 2-goal tree `P -> R` where `R`'s urgency function raises. -/
def raisingGraph : GoalGraph := [("P", parentNode), ("R", raisingNode)]

/-- C2 counterexample: evaluating the tree `P -> R`, where `R`'s urgency
function raises, does not complete with a number: the exception propagates
out of the whole tree evaluation (there is no handler in the source). -/
theorem c2_counterexample_exception_propagates :
    effective_value 2 raisingGraph "P" 0 [] = .error .userError := rfl

/-- C2 amended: when a goal's urgency function raises, or its urgency
function succeeds and its utility function raises, `effective_value`
propagates that exact exception to the caller; no 0.0 substitution occurs. -/
theorem c2_amended_eval_propagates_fn_exception (fuel : Nat) (g : GoalGraph) (name : String)
    (nd : GoalNode) (t : ℚ) (st : PState) (hfind : findNode g name = some nd) :
    (∀ e, nd.urgency_fn t = .error e →
      effective_value (fuel+1) g name t st = .error e) ∧
    (∀ b e, nd.urgency_fn t = .ok b → nd.utility_fn st = .error e →
      effective_value (fuel+1) g name t st = .error e) := by
  constructor
  · intro e he
    simp only [effective_value, hfind, urgency, he]
  · intro b e hb he
    simp only [effective_value, hfind, urgency, utility, hb, he]

/-- C2 amended, witness at the concrete raising goal `R`. -/
theorem c2_amended_witness :
    effective_value 1 raisingGraph "R" 0 [] = .error .userError :=
  (c2_amended_eval_propagates_fn_exception 0 raisingGraph "R" raisingNode 0 [] rfl).1
    .userError rfl

lemma evalList_length (f : String → Except PyErr ℚ) :
    ∀ (l : List String) (vs : List ℚ), evalList f l = .ok vs → vs.length = l.length := by
  intro l
  induction l with
  | nil => intro vs h; simp only [evalList] at h; cases h; rfl
  | cons d ds ih =>
      intro vs h
      simp only [evalList] at h
      cases hfd : f d with
      | error e => rw [hfd] at h; cases h
      | ok v =>
          rw [hfd] at h
          cases hrec : evalList f ds with
          | error e => rw [hrec] at h; cases h
          | ok ws => rw [hrec] at h; cases h; simpa using ih ws hrec

lemma traitMod_of_no_traits (nd : GoalNode) (st : PState) (base : ℚ)
    (h : nd.traits = []) : traitMod nd st base = 0 := by
  simp [traitMod, hasTrait, h]

/-- C5: on a successful evaluation (node present, urgency and utility return
`u` and `ut`, the dependencies recursively evaluate to `vs`), the effective
value is `u * ut` plus the arithmetic mean of `vs` (0 with no dependencies)
plus the trait-modification sum; in particular a trait-free leaf yields
`u * ut`, and a trait-free goal with two dependency values `v1, v2` yields
`u * ut + (v1 + v2) / 2`. -/
theorem c5_effective_value_equation (fuel : Nat) (g : GoalGraph) (name : String)
    (nd : GoalNode) (t : ℚ) (st : PState) (u ut : ℚ) (vs : List ℚ)
    (hfind : findNode g name = some nd)
    (hu : urgency nd t st = .ok u)
    (hut : utility nd st = .ok ut)
    (hvs : evalList (fun d => effective_value fuel g d t st) nd.dependencies = .ok vs) :
    effective_value (fuel+1) g name t st
      = .ok (u * ut + (if nd.dependencies.isEmpty then 0 else vs.sum / (vs.length : ℚ))
          + traitMod nd st (u * ut))
    ∧ (nd.traits = [] → nd.dependencies = [] →
        effective_value (fuel+1) g name t st = .ok (u * ut))
    ∧ (∀ v1 v2, nd.traits = [] → vs = [v1, v2] →
        effective_value (fuel+1) g name t st = .ok (u * ut + (v1 + v2) / 2)) := by
  have hdep : dependency_value (fun d => effective_value fuel g d t st) nd.dependencies
      = .ok (if nd.dependencies.isEmpty then 0 else vs.sum / (vs.length : ℚ)) := by
    by_cases hemp : nd.dependencies.isEmpty
    · simp [dependency_value, hemp]
    · simp [dependency_value, hemp, hvs]
  have hmain : effective_value (fuel+1) g name t st
      = .ok (u * ut + (if nd.dependencies.isEmpty then 0 else vs.sum / (vs.length : ℚ))
          + traitMod nd st (u * ut)) := by
    simp only [effective_value, hfind, hu, hut, hdep]
  refine ⟨hmain, ?_, ?_⟩
  · intro htr hdeps
    rw [hmain, traitMod_of_no_traits nd st _ htr]
    simp [hdeps]
  · intro v1 v2 htr hv
    have hlen : vs.length = nd.dependencies.length := evalList_length _ _ _ hvs
    have hne : nd.dependencies.isEmpty = false := by
      subst hv
      cases hd : nd.dependencies with
      | nil => rw [hd] at hlen; simp at hlen
      | cons a as => simp [List.isEmpty]
    rw [hmain, traitMod_of_no_traits nd st _ htr]
    subst hv
    norm_num [hne, List.sum_cons]

lemma urgency_leaf (u v t : ℚ) (st : PState) : urgency (leafNode u v) t st = .ok u := by
  simp [urgency, leafNode, constFn, hasTrait]

lemma utility_leaf (u v : ℚ) (st : PState) : utility (leafNode u v) st = .ok v := by
  simp [utility, leafNode, constUtil, hasTrait]

lemma effective_value_leaf (fuel : Nat) (g : GoalGraph) (name : String) (u v t : ℚ)
    (st : PState) (hfind : findNode g name = some (leafNode u v)) :
    effective_value (fuel+1) g name t st = .ok (u * v) := by
  simp only [effective_value, hfind, urgency_leaf, utility_leaf]
  simp [dependency_value, leafNode, traitMod, hasTrait]

/-- The master node of the three-node evaluation tree: urgency 3, utility 1,
two dependencies, no traits. -/
def wMaster : GoalNode :=
  { urgency_fn := constFn 3, utility_fn := constUtil 1,
    dependencies := ["g1", "g2"], traits := [] }

/-- A three-node tree for exercising the effective-value equation:
`m` (urgency 3, utility 1) depends on leaves `g1` (value 2) and `g2`
(value 4). -/
def wGraph : GoalGraph := [("m", wMaster), ("g1", leafNode 1 2), ("g2", leafNode 1 4)]

/-- C5 witness: the two-dependency instance evaluated on `wGraph`. -/
theorem c5_witness :
    effective_value (1+1) wGraph "m" 0 [] = .ok ((3 : ℚ) * 1 + ((2 : ℚ) + 4) / 2) := by
  have h1 := effective_value_leaf 0 wGraph "g1" 1 2 0 [] rfl
  have h2 := effective_value_leaf 0 wGraph "g2" 1 4 0 [] rfl
  norm_num at h1 h2
  refine (c5_effective_value_equation 1 wGraph "m" wMaster 0 [] 3 1 [2, 4] rfl ?_ ?_ ?_).2.2
    2 4 rfl rfl
  · simp [urgency, wMaster, constFn, hasTrait]
  · simp [utility, wMaster, constUtil, hasTrait]
  · simp [evalList, wMaster, h1, h2]

/-- The `GoalArbitrator` of `core/arbitrator.py` (lines 17-30).  Goals are
held by name into the heap graph; `prev_values` is the `_previous_values`
Lyapunov history and `delta_t` the `_delta_t` step (default 0.1). -/
structure Arbitrator where
  goals : List String
  mode : String := "softmax"
  temperature : ℚ := 1
  nash_iterations : Nat := 20
  prev_values : PState := []
  delta_t : ℚ := 1/10

/-- Python `max(values)` on a non-empty list `x :: xs`: fold keeping the
current maximum, replacing it only when a later element is strictly
greater (so the first maximal element is the one retained). -/
def pyMax (x : ℚ) (xs : List ℚ) : ℚ :=
  xs.foldl (fun m v => if m < v then v else m) x

/-- Python `max(values)` with the (unreachable, guarded) empty case. -/
def pyMaxL : List ℚ → ℚ
  | [] => 0
  | x :: xs => pyMax x xs

/-- Python `values.index(v)`: index of the first occurrence of `v`
(the length, never hit in the guarded uses, when `v` is absent). -/
def pyIndex (v : ℚ) : List ℚ → Nat
  | [] => 0
  | x :: xs => if x = v then 0 else pyIndex v xs + 1

/-- `GoalArbitrator.softmax` (arbitrator.py lines 32-41), with `math.exp`
abstracted as the parameter `e` (any non-negative model of the float
exponential, including one that underflows to exactly 0). -/
def softmax (e : ℚ → ℚ) (T : ℚ) : List ℚ → List ℚ
  | [] => []
  | v0 :: rest =>
      let max_val := pyMax v0 rest
      let exps := (v0 :: rest).map (fun v => e ((v - max_val) / T))
      let sum_exps := exps.sum
      if sum_exps = 0 then
        List.replicate (v0 :: rest).length (1 / ((v0 :: rest).length : ℚ))
      else exps.map (fun x => x / sum_exps)

/-- The iterative best-response loop of `nash_arbitrate` (arbitrator.py
lines 152-179), with the payoff-matrix entries written out: the remaining
iteration budget is the first argument, and on convergence (both updates
within 1e-4) the loop breaks returning the pre-update probabilities. -/
def nashLoop (ev1 ev2 : ℚ) : Nat → ℚ → ℚ → ℚ × ℚ
  | 0, p1, p2 => (p1, p2)
  | n+1, p1, p2 =>
      let util_engage_g1 := p2 * (ev1 + ev2) + (1 - p2) * ev1
      let util_not_engage_g1 := p2 * 0 + (1 - p2) * 0
      let p1_new := if util_not_engage_g1 < util_engage_g1 then 1
        else if util_engage_g1 < util_not_engage_g1 then 0 else p1
      let util_engage_g2 := p1 * (ev2 + ev1) + (1 - p1) * ev2
      let util_not_engage_g2 := p1 * 0 + (1 - p1) * 0
      let p2_new := if util_not_engage_g2 < util_engage_g2 then 1
        else if util_engage_g2 < util_not_engage_g2 then 0 else p2
      if |p1 - p1_new| < 1/10000 ∧ |p2 - p2_new| < 1/10000 then (p1, p2)
      else nashLoop ev1 ev2 n p1_new p2_new

/-- `GoalArbitrator.nash_arbitrate` (arbitrator.py lines 118-187): raises
`ValueError` unless exactly two goals are held; otherwise runs iterative
best response from (0.5, 0.5) and picks the goal with the higher final
engagement probability, breaking an exact tie by `ev_g1 >= ev_g2`. -/
def nash_arbitrate (fuel : Nat) (g : GoalGraph) (arb : Arbitrator) (t : ℚ) (st : PState) :
    Except PyErr (Option String) :=
  match arb.goals with
  | [g1, g2] =>
      match effective_value fuel g g1 t st with
      | .error e => .error e
      | .ok ev1 =>
          match effective_value fuel g g2 t st with
          | .error e => .error e
          | .ok ev2 =>
              let p := nashLoop ev1 ev2 arb.nash_iterations (1/2) (1/2)
              .ok (some (if p.2 < p.1 then g1 else if p.1 < p.2 then g2
                else if ev2 ≤ ev1 then g1 else g2))
  | _ => .error .valueError

/-- The per-goal loop of `lyapunov_arbitrate` (arbitrator.py lines
204-222): for each goal compute the current value, read the previous value
(defaulting to the current one), form `v_dot` and the score
`current + 1.0 * max(0, v_dot)`, append the candidate and record the
current value into the history before moving to the next goal. -/
def lyapLoop (ev : String → Except PyErr ℚ) (dt : ℚ) :
    List String → PState → Except PyErr (List (ℚ × String) × PState)
  | [], h => .ok ([], h)
  | n :: ns, h =>
      match ev n with
      | .error e => .error e
      | .ok cur =>
          let prev := getD h n cur
          let v_dot := if 0 < dt then (cur - prev) / dt else 0
          let score := cur + 1 * max 0 v_dot
          match lyapLoop ev dt ns (histSet h n cur) with
          | .error e => .error e
          | .ok (cands, h') => .ok ((score, n) :: cands, h')

/-- The head of the score-descending stable sort of the candidates
(arbitrator.py lines 225-226): CPython's sort is stable, so
`candidates[0]` after `sort(reverse=True)` is the first candidate whose
score is maximal; the fold keeps an earlier candidate unless a later one
is strictly better. -/
def pickBest : List (ℚ × String) → Option String
  | [] => none
  | c :: cs => some ((cs.foldl (fun b x => if b.1 < x.1 then x else b) c).2)

/-- `GoalArbitrator.lyapunov_arbitrate` (arbitrator.py lines 189-226),
returning the selection together with the updated `_previous_values`. -/
def lyapunov_arbitrate (fuel : Nat) (g : GoalGraph) (arb : Arbitrator) (t : ℚ) (st : PState) :
    Except PyErr (Option String × PState) :=
  if arb.goals.isEmpty then .ok (none, arb.prev_values)
  else
    match lyapLoop (fun n => effective_value fuel g n t st) arb.delta_t
        arb.goals arb.prev_values with
    | .error e => .error e
    | .ok (cands, h') => .ok (pickBest cands, h')

/-- `GoalArbitrator.select_goal` (arbitrator.py lines 43-84): `None` with
no goals; mode dispatch over max / softmax / nash / lyapunov; any other
mode string falls into the final `else` branch, which is a comment-marked
"Default fallback to max" re-running the max-mode body.  The returned pair
carries the possibly updated Lyapunov history. -/
def select_goal (e : ℚ → ℚ) (fuel : Nat) (g : GoalGraph) (arb : Arbitrator)
    (t : ℚ) (st : PState) : Except PyErr (Option String × PState) :=
  if arb.goals.isEmpty then .ok (none, arb.prev_values)
  else if arb.mode = "max" then
    match evalList (fun n => effective_value fuel g n t st) arb.goals with
    | .error er => .error er
    | .ok values => .ok (arb.goals.get? (pyIndex (pyMaxL values) values), arb.prev_values)
  else if arb.mode = "softmax" then
    match evalList (fun n => effective_value fuel g n t st) arb.goals with
    | .error er => .error er
    | .ok values =>
        let probs := softmax e arb.temperature values
        if probs.isEmpty then .ok (none, arb.prev_values)
        else .ok (arb.goals.get? (pyIndex (pyMaxL probs) probs), arb.prev_values)
  else if arb.mode = "nash" then
    if arb.goals.length ≠ 2 then .error .valueError
    else
      match nash_arbitrate fuel g arb t st with
      | .error er => .error er
      | .ok r => .ok (r, arb.prev_values)
  else if arb.mode = "lyapunov" then lyapunov_arbitrate fuel g arb t st
  else
    match evalList (fun n => effective_value fuel g n t st) arb.goals with
    | .error er => .error er
    | .ok values => .ok (arb.goals.get? (pyIndex (pyMaxL values) values), arb.prev_values)

/-- The value `GoalArbitrator.select` (arbitrator.py lines 86-116) hands
back: `None`, a single goal, or a goal -> probability dict. -/
inductive SelectResult where
  | noneRes
  | goalRes (name : String)
  | distRes (probs : List (String × ℚ))
deriving DecidableEq, Repr

/-- Lift the optional goal returned by `nash_arbitrate` into a
`SelectResult`. -/
def selResOfOpt : Option String → SelectResult
  | none => .noneRes
  | some n => .goalRes n

/-- `GoalArbitrator.select` (arbitrator.py lines 86-116): with exactly two
entries it overwrites `self.goals` with the two keys and calls
`nash_arbitrate(t=0.0, state={})`; otherwise it softmaxes the supplied
values and returns the re-normalized distribution.  The updated arbitrator
(whose `goals` field the two-entry branch mutates) is returned alongside. -/
def select (e : ℚ → ℚ) (fuel : Nat) (g : GoalGraph) (arb : Arbitrator)
    (expected_values : List (String × ℚ)) : Except PyErr (SelectResult × Arbitrator) :=
  if expected_values.isEmpty then .ok (.noneRes, arb)
  else
    let goals_list := expected_values.map (fun p => p.1)
    let values := expected_values.map (fun p => p.2)
    if expected_values.length = 2 then
      let arb' := { arb with goals := goals_list }
      match nash_arbitrate fuel g arb' 0 [] with
      | .error er => .error er
      | .ok r => .ok (selResOfOpt r, arb')
    else
      let probs := softmax e arb.temperature values
      let total := probs.sum
      let pt := if total = 0
        then (List.replicate probs.length (1 / (probs.length : ℚ)), (1 : ℚ))
        else (probs, total)
      .ok (.distRes (goals_list.zip (pt.1.map (fun p => p / pt.2))), arb)

/-- The `GoalArbitrator.__init__` of `core/RecursiveGoalManager.py`
(lines 83-87): any mode outside {max, softmax} raises `ValueError`. -/
def rgmArbitratorInit (mode : String) : Except PyErr String :=
  if mode = "max" ∨ mode = "softmax" then .ok mode else .error .valueError

lemma sum_map_div_eq (l : List ℚ) (s : ℚ) : (l.map (fun x => x / s)).sum = l.sum / s := by
  induction l with
  | nil => simp
  | cons x xs ih => simp [ih, add_div]

/-- C4: for every non-empty value list, any non-negative model `e` of the
float exponential (underflow to exactly 0 included) and positive
temperature, the softmax output has the input's length, every entry is
non-negative, and the entries sum to exactly 1 (so in particular within
tolerance 1e-6); when the normalizer is exactly 0 the uniform branch
produces the same guarantees. -/
theorem c4_softmax_is_distribution (e : ℚ → ℚ) (T : ℚ) (values : List ℚ)
    (hne : values ≠ []) (hnn : ∀ x, 0 ≤ e x) (hT : 0 < T) :
    (softmax e T values).length = values.length
    ∧ (∀ p ∈ softmax e T values, 0 ≤ p)
    ∧ (softmax e T values).sum = 1 := by
  match values, hne with
  | v0 :: rest, _ =>
      simp only [softmax]
      by_cases hz : ((v0 :: rest).map (fun v => e ((v - pyMax v0 rest) / T))).sum = 0
      · rw [if_pos hz]
        refine ⟨by simp, ?_, ?_⟩
        · intro p hp
          rw [List.eq_of_mem_replicate hp]
          have : (0 : ℚ) < ((v0 :: rest).length : ℚ) := by
            exact_mod_cast Nat.succ_pos rest.length
          positivity
        · rw [List.sum_replicate, nsmul_eq_mul, mul_one_div, div_self]
          exact Nat.cast_ne_zero.mpr (by simp)
      · rw [if_neg hz]
        have hnn' : 0 ≤ ((v0 :: rest).map (fun v => e ((v - pyMax v0 rest) / T))).sum :=
          List.sum_nonneg (by
            intro x hx
            obtain ⟨v, _, rfl⟩ := List.mem_map.1 hx
            exact hnn _)
        refine ⟨by simp, ?_, ?_⟩
        · intro p hp
          obtain ⟨x, hx, rfl⟩ := List.mem_map.1 hp
          obtain ⟨v, -, rfl⟩ := List.mem_map.1 hx
          exact div_nonneg (hnn _) hnn'
        · rw [sum_map_div_eq, div_self hz]

/-- C4 witness: the degenerate case where every modelled exponential
underflows to exactly 0 on the three-value input `[1, 2, 3]`. -/
theorem c4_witness :
    (softmax (fun _ => (0 : ℚ)) 1 [1, 2, 3]).length = ([1, 2, 3] : List ℚ).length
    ∧ (∀ p ∈ softmax (fun _ => (0 : ℚ)) 1 [1, 2, 3], 0 ≤ p)
    ∧ (softmax (fun _ => (0 : ℚ)) 1 [1, 2, 3]).sum = 1 :=
  c4_softmax_is_distribution (fun _ => 0) 1 [1, 2, 3] (by simp)
    (fun _ => le_refl 0) (by norm_num)

lemma pyMax_cons (x y : ℚ) (ys : List ℚ) :
    pyMax x (y :: ys) = pyMax (if x < y then y else x) ys := rfl

lemma pyMax_mem (x : ℚ) (xs : List ℚ) : pyMax x xs ∈ x :: xs := by
  induction xs generalizing x with
  | nil => simp [pyMax]
  | cons y ys ih =>
      rw [pyMax_cons]
      rcases List.mem_cons.1 (ih (if x < y then y else x)) with h | h
      · rw [h]
        split_ifs <;> simp
      · simp [List.mem_cons.2 (Or.inr (List.mem_cons.2 (Or.inr h)))]

lemma pyMax_ge (x : ℚ) (xs : List ℚ) : ∀ v ∈ x :: xs, v ≤ pyMax x xs := by
  induction xs generalizing x with
  | nil =>
      intro v hv
      rw [List.mem_singleton.1 hv]
      simp [pyMax]
  | cons y ys ih =>
      intro v hv
      rw [pyMax_cons]
      have hseed : ∀ w ∈ (if x < y then y else x) :: ys, w ≤ pyMax (if x < y then y else x) ys :=
        ih (if x < y then y else x)
      have hseed_le : (if x < y then y else x) ≤ pyMax (if x < y then y else x) ys :=
        hseed _ (List.mem_cons_self _ _)
      rcases List.mem_cons.1 hv with rfl | hv'
      · refine le_trans ?_ hseed_le
        split_ifs with hxy
        · exact le_of_lt hxy
        · exact le_refl v
      · rcases List.mem_cons.1 hv' with rfl | hv''
        · refine le_trans ?_ hseed_le
          split_ifs with hxy
          · exact le_refl v
          · exact le_of_not_lt hxy
        · exact hseed v (List.mem_cons.2 (Or.inr hv''))

lemma pyMaxL_mem (l : List ℚ) (h : l ≠ []) : pyMaxL l ∈ l := by
  match l, h with
  | x :: xs, _ => exact pyMax_mem x xs

lemma pyMaxL_ge (l : List ℚ) : ∀ v ∈ l, v ≤ pyMaxL l := by
  match l with
  | [] => intro v hv; cases hv
  | x :: xs => exact pyMax_ge x xs

lemma get?_pyIndex (v : ℚ) (l : List ℚ) (h : v ∈ l) : l.get? (pyIndex v l) = some v := by
  induction l with
  | nil => cases h
  | cons x xs ih =>
      by_cases hxv : x = v
      · simp [pyIndex, hxv]
      · have hmem : v ∈ xs := by
          rcases List.mem_cons.1 h with h' | h'
          · exact absurd h'.symm hxv
          · exact h'
        simpa [pyIndex, hxv] using ih hmem

lemma get?_before_pyIndex (v : ℚ) (l : List ℚ) :
    ∀ j < pyIndex v l, ∀ w, l.get? j = some w → w ≠ v := by
  induction l with
  | nil => intro j hj; simp [pyIndex] at hj
  | cons x xs ih =>
      intro j hj w hw
      by_cases hxv : x = v
      · simp [pyIndex, hxv] at hj
      · rw [pyIndex, if_neg hxv] at hj
        match j with
        | 0 =>
            simp only [List.get?] at hw
            cases hw
            exact hxv
        | j'+1 =>
            exact ih j' (Nat.lt_of_succ_lt_succ hj) w hw

/-- C6: in max mode on a non-empty goal list whose effective values all
evaluate (to `values`), `select_goal` returns the goal at the index of the
first occurrence of the maximal value: every value is `≤` the selected
one, and every value at an earlier index is strictly smaller. -/
theorem c6_max_mode_selects_first_argmax (e : ℚ → ℚ) (fuel : Nat) (g : GoalGraph)
    (arb : Arbitrator) (t : ℚ) (st : PState) (values : List ℚ)
    (hmode : arb.mode = "max") (hne : arb.goals ≠ [])
    (hvals : evalList (fun n => effective_value fuel g n t st) arb.goals = .ok values) :
    ∃ i name, select_goal e fuel g arb t st = .ok (some name, arb.prev_values)
      ∧ arb.goals.get? i = some name
      ∧ values.get? i = some (pyMaxL values)
      ∧ (∀ v ∈ values, v ≤ pyMaxL values)
      ∧ (∀ j < i, ∀ w, values.get? j = some w → w < pyMaxL values) := by
  have hlen : values.length = arb.goals.length := evalList_length _ _ _ hvals
  have hvne : values ≠ [] := by
    intro hnil
    rw [hnil] at hlen
    exact hne (List.length_eq_zero.1 hlen.symm)
  have hempty : arb.goals.isEmpty = false := by
    cases h : arb.goals with
    | nil => exact absurd h hne
    | cons a as => rfl
  have hmem : pyMaxL values ∈ values := pyMaxL_mem values hvne
  set i := pyIndex (pyMaxL values) values with hi
  have hidx : values.get? i = some (pyMaxL values) := get?_pyIndex _ _ hmem
  have hilt : i < values.length := by
    by_contra hge
    rw [List.get?_eq_none.2 (le_of_not_lt hge)] at hidx
    cases hidx
  obtain ⟨name, hname⟩ : ∃ name, arb.goals.get? i = some name := by
    have : i < arb.goals.length := hlen ▸ hilt
    exact ⟨arb.goals.get ⟨i, this⟩, List.get?_eq_get this⟩
  refine ⟨i, name, ?_, hname, hidx, pyMaxL_ge values, ?_⟩
  · simp only [select_goal, hempty, Bool.false_eq_true, if_false, hmode, if_pos rfl, hvals]
    rw [hname]
    simp
  · intro j hj w hw
    exact lt_of_le_of_ne (pyMaxL_ge values w (List.get?_mem hw))
      (get?_before_pyIndex _ _ j hj w hw)

/-- The three-leaf graph used for the max-mode witness: values 2, 5, 5. -/
def maxGraph : GoalGraph :=
  [("A", leafNode 1 2), ("B", leafNode 1 5), ("C", leafNode 1 5)]

/-- C6 witness: goals A, B, C with values 2, 5, 5 — the tie between B and
C is broken in favour of B, the first maximal goal. -/
theorem c6_witness :
    ∃ i name,
      select_goal (fun _ => 1) 1 maxGraph
          { goals := ["A", "B", "C"], mode := "max" } 0 [] = .ok (some name, [])
      ∧ (["A", "B", "C"] : List String).get? i = some name
      ∧ ([2, 5, 5] : List ℚ).get? i = some (pyMaxL [2, 5, 5])
      ∧ (∀ v ∈ ([2, 5, 5] : List ℚ), v ≤ pyMaxL [2, 5, 5])
      ∧ (∀ j < i, ∀ w, ([2, 5, 5] : List ℚ).get? j = some w → w < pyMaxL [2, 5, 5]) := by
  have hA := effective_value_leaf 0 maxGraph "A" 1 2 0 [] rfl
  have hB := effective_value_leaf 0 maxGraph "B" 1 5 0 [] rfl
  have hC := effective_value_leaf 0 maxGraph "C" 1 5 0 [] rfl
  norm_num at hA hB hC
  exact c6_max_mode_selects_first_argmax (fun _ => 1) 1 maxGraph
    { goals := ["A", "B", "C"], mode := "max" } 0 [] [2, 5, 5] rfl (by simp)
    (by simp [evalList, hA, hB, hC])

/-- A two-leaf graph: goal A with value 1, goal B with value 2. -/
def abGraph : GoalGraph := [("A", leafNode 1 1), ("B", leafNode 1 2)]

/-- An arbitrator configured with the unknown mode string "bogus". -/
def bogusArb : Arbitrator := { goals := ["A", "B"], mode := "bogus" }

/-- C3 counterexample: with the unknown mode "bogus" over goals A (value 1)
and B (value 2), `select_goal` does not report any error: it silently
selects B, exactly as max mode would. -/
theorem c3_counterexample_unknown_mode_silent :
    select_goal (fun _ => 1) 1 abGraph bogusArb 0 [] = .ok (some "B", []) := by
  have hA := effective_value_leaf 0 abGraph "A" 1 1 0 [] rfl
  have hB := effective_value_leaf 0 abGraph "B" 1 2 0 [] rfl
  norm_num at hA hB
  have hb1 : ("bogus" : String) ≠ "max" := by decide
  have hb2 : ("bogus" : String) ≠ "softmax" := by decide
  have hb3 : ("bogus" : String) ≠ "nash" := by decide
  have hb4 : ("bogus" : String) ≠ "lyapunov" := by decide
  norm_num [select_goal, bogusArb, evalList, hA, hB, pyMaxL, pyMax, pyIndex,
    hb1, hb2, hb3, hb4]

/-- C3 amended: `GoalArbitrator.select_goal` with a mode outside
{max, softmax, nash, lyapunov} silently behaves exactly like max mode
(the commented "Default fallback to max" branch) instead of reporting a
contract violation; only the separate `GoalArbitrator` of
`RecursiveGoalManager.py` rejects unknown modes (anything outside
{max, softmax}) with a `ValueError` at construction. -/
theorem c3_amended_unknown_mode_falls_back_to_max (e : ℚ → ℚ) (fuel : Nat) (g : GoalGraph)
    (arb : Arbitrator) (t : ℚ) (st : PState)
    (h1 : arb.mode ≠ "max") (h2 : arb.mode ≠ "softmax")
    (h3 : arb.mode ≠ "nash") (h4 : arb.mode ≠ "lyapunov") :
    select_goal e fuel g arb t st = select_goal e fuel g { arb with mode := "max" } t st
    ∧ ∀ mode, mode ≠ "max" → mode ≠ "softmax" →
        rgmArbitratorInit mode = .error .valueError := by
  constructor
  · simp [select_goal, h1, h2, h3, h4]
  · intro mode hm hs
    simp [rgmArbitratorInit, hm, hs]

/-- C3 amended, witness at the concrete mode string "bogus". -/
theorem c3_amended_witness :
    select_goal (fun _ => 1) 1 abGraph bogusArb 0 []
      = select_goal (fun _ => 1) 1 abGraph { bogusArb with mode := "max" } 0 [] :=
  (c3_amended_unknown_mode_falls_back_to_max (fun _ => 1) 1 abGraph bogusArb 0 []
    (by simp [bogusArb]) (by simp [bogusArb]) (by simp [bogusArb]) (by simp [bogusArb])).1

/-- C7: `nash_arbitrate` with a goal-list length other than 2 (0, 1, 3, ...)
raises `ValueError`, and `select_goal` in nash mode with a non-empty goal
list of length ≠ 2 propagates that contract violation to the caller. -/
theorem c7_nash_requires_exactly_two (e : ℚ → ℚ) (fuel : Nat) (g : GoalGraph)
    (arb : Arbitrator) (t : ℚ) (st : PState) :
    (arb.goals.length ≠ 2 → nash_arbitrate fuel g arb t st = .error .valueError)
    ∧ (arb.mode = "nash" → arb.goals ≠ [] → arb.goals.length ≠ 2 →
        select_goal e fuel g arb t st = .error .valueError) := by
  constructor
  · intro hlen
    match hg : arb.goals, hlen with
    | [], _ => simp [nash_arbitrate, hg]
    | [a], _ => simp [nash_arbitrate, hg]
    | a :: b :: c :: r, _ => simp [nash_arbitrate, hg]
    | [a, b], hlen => exact absurd rfl hlen
  · intro hm hne hlen
    have hempty : arb.goals.isEmpty = false := by
      cases h : arb.goals with
      | nil => exact absurd h hne
      | cons a as => rfl
    simp [select_goal, hempty, hm, hlen]

/-- C7 witness: one goal (A) and three goals (A, B, C) are both rejected,
by `nash_arbitrate` directly and through nash-mode `select_goal`. -/
theorem c7_witness :
    nash_arbitrate 1 abGraph { goals := ["A"] } 0 [] = .error .valueError
    ∧ nash_arbitrate 1 abGraph { goals := ["A", "B", "C"] } 0 [] = .error .valueError
    ∧ select_goal (fun _ => 1) 1 abGraph { goals := ["A", "B", "C"], mode := "nash" } 0 []
        = .error .valueError :=
  ⟨(c7_nash_requires_exactly_two (fun _ => 1) 1 abGraph { goals := ["A"] } 0 []).1 (by decide),
   (c7_nash_requires_exactly_two (fun _ => 1) 1 abGraph { goals := ["A", "B", "C"] } 0 []).1
     (by decide),
   (c7_nash_requires_exactly_two (fun _ => 1) 1 abGraph
       { goals := ["A", "B", "C"], mode := "nash" } 0 []).2 rfl (by simp) (by decide)⟩

/-- Spec-side definition, from the specification's words (§4.5): the
expected payoff to a player of engaging, given the other player's current
engagement probability `q` — its own effective value if the other
abstains, the sum of both if both engage; abstaining always pays 0. -/
def specEngagePayoff (evSelf evOther q : ℚ) : ℚ :=
  q * (evSelf + evOther) + (1 - q) * evSelf

/-- Spec-side definition: a player's best response — 1.0 if engaging
strictly dominates (payoff above the 0 of abstaining), 0.0 if abstaining
strictly dominates, otherwise hold the previous probability. -/
def specBestResponse (evSelf evOther q pPrev : ℚ) : ℚ :=
  if 0 < specEngagePayoff evSelf evOther q then 1
  else if specEngagePayoff evSelf evOther q < 0 then 0
  else pPrev

/-- Spec-side definition: iterate both best responses from the current
probability pair, for up to the remaining budget, terminating early once
both probabilities change by less than the tolerance. -/
def specBestResponseIter (ev1 ev2 tol : ℚ) : Nat → ℚ × ℚ → ℚ × ℚ
  | 0, p => p
  | n+1, (p1, p2) =>
      let p1' := specBestResponse ev1 ev2 p2 p1
      let p2' := specBestResponse ev2 ev1 p1 p2
      if |p1 - p1'| < tol ∧ |p2 - p2'| < tol then (p1, p2)
      else specBestResponseIter ev1 ev2 tol n (p1', p2')

/-- Spec-side definition: run iterative best response from (0.5, 0.5) with
tolerance 1e-4, select the goal with the higher resulting engagement
probability, and break an exact probability tie by comparing the raw
effective values directly. -/
def specNashSelect (g1 g2 : String) (ev1 ev2 : ℚ) (budget : Nat) : String :=
  let p := specBestResponseIter ev1 ev2 (1/10000) budget (1/2, 1/2)
  if p.2 < p.1 then g1 else if p.1 < p.2 then g2 else if ev1 ≥ ev2 then g1 else g2

lemma nashLoop_eq_specBestResponseIter (ev1 ev2 : ℚ) :
    ∀ (n : Nat) (p1 p2 : ℚ),
      nashLoop ev1 ev2 n p1 p2 = specBestResponseIter ev1 ev2 (1/10000) n (p1, p2) := by
  intro n
  induction n with
  | zero => intro p1 p2; rfl
  | succ m ih =>
      intro p1 p2
      simp only [nashLoop, specBestResponseIter, specBestResponse, specEngagePayoff,
        mul_zero, add_zero, ih]

/-- C8: for exactly two goals with effective values `ev1`, `ev2`, the
source `nash_arbitrate` returns exactly the goal described by the spec's
words: iterative best response (engage strictly dominating -> 1.0,
abstain strictly dominating -> 0.0, else hold) from (0.5, 0.5), budget
`nash_iterations` (default 20), early stop at 1e-4, winner by higher
engagement probability, exact ties broken by `ev1 >= ev2`. -/
theorem c8_nash_matches_spec_best_response (fuel : Nat) (g : GoalGraph) (arb : Arbitrator)
    (t : ℚ) (st : PState) (g1 g2 : String) (ev1 ev2 : ℚ)
    (hgoals : arb.goals = [g1, g2])
    (h1 : effective_value fuel g g1 t st = .ok ev1)
    (h2 : effective_value fuel g g2 t st = .ok ev2) :
    nash_arbitrate fuel g arb t st
      = .ok (some (specNashSelect g1 g2 ev1 ev2 arb.nash_iterations)) := by
  simp only [nash_arbitrate, hgoals, h1, h2, specNashSelect,
    nashLoop_eq_specBestResponseIter, ge_iff_le]

/-- C8 witness: goals A (value 1) and B (value 2) under the default
20-iteration budget. -/
theorem c8_witness :
    nash_arbitrate 1 abGraph { goals := ["A", "B"] } 0 []
      = .ok (some (specNashSelect "A" "B" 1 2 20)) :=
  c8_nash_matches_spec_best_response 1 abGraph { goals := ["A", "B"] } 0 [] "A" "B" 1 2 rfl
    (by have h := effective_value_leaf 0 abGraph "A" 1 1 0 [] rfl; norm_num at h; exact h)
    (by have h := effective_value_leaf 0 abGraph "B" 1 2 0 [] rfl; norm_num at h; exact h)

lemma getD_nil (k : String) (d : ℚ) : getD [] k d = d := rfl

lemma getD_cons (a : String) (b : ℚ) (tl : PState) (k : String) (d : ℚ) :
    getD ((a, b) :: tl) k d = if a = k then b else getD tl k d := by
  by_cases hak : a = k
  · have hb : (a == k) = true := beq_iff_eq.mpr hak
    simp [getD, List.find?, hb, hak]
  · have hb : (a == k) = false := beq_eq_false_iff_ne.mpr hak
    simp [getD, List.find?, hb, hak]

lemma getD_histSet_ne (h : PState) (k k' : String) (v d : ℚ) (hne : k ≠ k') :
    getD (histSet h k v) k' d = getD h k' d := by
  induction h with
  | nil => simp [histSet, getD_cons, getD_nil, hne]
  | cons p tl ih =>
      obtain ⟨a, b⟩ := p
      by_cases hak : a = k
      · simp [histSet, hak, getD_cons, hne]
      · simp [histSet, hak, getD_cons, ih]

lemma lyap_pair (fuel : Nat) (g : GoalGraph) (arb : Arbitrator) (t : ℚ) (st : PState)
    (n1 n2 : String) (a b : ℚ)
    (hgoals : arb.goals = [n1, n2]) (hne : n1 ≠ n2) (hdt : 0 < arb.delta_t)
    (h1 : effective_value fuel g n1 t st = .ok a)
    (h2 : effective_value fuel g n2 t st = .ok b) :
    lyapunov_arbitrate fuel g arb t st
      = .ok (some (if a + 1 * max 0 ((a - getD arb.prev_values n1 a) / arb.delta_t)
              < b + 1 * max 0 ((b - getD arb.prev_values n2 b) / arb.delta_t)
            then n2 else n1),
          histSet (histSet arb.prev_values n1 a) n2 b) := by
  have hgd : getD (histSet arb.prev_values n1 a) n2 b = getD arb.prev_values n2 b :=
    getD_histSet_ne _ _ _ _ _ hne
  simp only [lyapunov_arbitrate, hgoals, List.isEmpty_cons, Bool.false_eq_true, if_false,
    lyapLoop, h1, h2, hgd, if_pos hdt, pickBest, List.foldl_cons, List.foldl_nil, apply_ite]

/-- The candidate list the Lyapunov loop builds over a goal/value zip:
each goal scored as `current + 1.0 * max(0, v_dot)` with
`v_dot = (current - previous)/Δt` (0 when Δt ≤ 0) and the previous value
read from the history `h`, defaulting to the current value. -/
def lyapCandidates (dt : ℚ) (h : PState) (names : List String) (vs : List ℚ) :
    List (ℚ × String) :=
  List.zipWith
    (fun n v => (v + 1 * max 0 (if 0 < dt then (v - getD h n v) / dt else 0), n)) names vs

/-- Writing each goal's current value into the history, in goal order
(the in-loop `self._previous_values[goal.name] = current_val` updates). -/
def histWriteAll : PState → List String → List ℚ → PState
  | h, n :: ns, v :: vs => histWriteAll (histSet h n v) ns vs
  | h, _, _ => h

lemma getD_histSet_self (h : PState) (k : String) (v d : ℚ) :
    getD (histSet h k v) k d = v := by
  induction h with
  | nil => simp [histSet, getD_cons]
  | cons p tl ih =>
      obtain ⟨a, b⟩ := p
      by_cases hak : a = k
      · simp [histSet, hak, getD_cons]
      · simp [histSet, hak, getD_cons, ih]

lemma getD_histWriteAll_not_mem :
    ∀ (names : List String) (vs : List ℚ) (h : PState) (n : String) (d : ℚ),
      n ∉ names → getD (histWriteAll h names vs) n d = getD h n d := by
  intro names
  induction names with
  | nil => intro vs h n d _; cases vs <;> rfl
  | cons m ms ih =>
      intro vs h n d hnm
      cases vs with
      | nil => rfl
      | cons w ws =>
          rw [List.mem_cons, not_or] at hnm
          rw [histWriteAll, ih ws _ n d hnm.2,
            getD_histSet_ne _ _ _ _ _ (fun he => hnm.1 he.symm)]

lemma getD_histWriteAll :
    ∀ (names : List String) (vs : List ℚ) (h : PState) (i : Nat) (n : String) (v d : ℚ),
      names.Nodup → names.get? i = some n → vs.get? i = some v →
      getD (histWriteAll h names vs) n d = v := by
  intro names
  induction names with
  | nil => intro vs h i n v d _ hn _; simp at hn
  | cons m ms ih =>
      intro vs h i n v d hnd hn hv
      rw [List.nodup_cons] at hnd
      cases vs with
      | nil => simp at hv
      | cons w ws =>
          match i with
          | 0 =>
              simp only [List.get?] at hn hv
              cases hn; cases hv
              rw [histWriteAll, getD_histWriteAll_not_mem ms ws _ _ _ hnd.1,
                getD_histSet_self]
          | i'+1 =>
              simp only [List.get?] at hn hv
              exact ih ws (histSet h m w) i' n v d hnd.2 hn hv

lemma pickBest_first_max :
    ∀ (cs : List (ℚ × String)) (c : ℚ × String),
      ∃ pre best post,
        c :: cs = pre ++ best :: post
        ∧ cs.foldl (fun b x => if b.1 < x.1 then x else b) c = best
        ∧ (∀ x ∈ pre, x.1 < best.1)
        ∧ (∀ x ∈ c :: cs, x.1 ≤ best.1) := by
  intro cs
  induction cs with
  | nil =>
      intro c
      refine ⟨[], c, [], rfl, rfl, by simp, ?_⟩
      intro x hx
      rw [List.mem_singleton.1 hx]
  | cons x xs ih =>
      intro c
      obtain ⟨pre, best, post, hdec, hfold, hpre, hall⟩ := ih (if c.1 < x.1 then x else c)
      have hseed : (if c.1 < x.1 then x else c).1 ≤ best.1 :=
        hall _ (List.mem_cons_self _ _)
      have hcle : c.1 ≤ best.1 := by
        refine le_trans ?_ hseed
        split_ifs with h
        · exact le_of_lt h
        · exact le_refl _
      have hxle : x.1 ≤ best.1 := by
        refine le_trans ?_ hseed
        split_ifs with h
        · exact le_refl _
        · exact le_of_not_lt h
      have hall' : ∀ y ∈ c :: x :: xs, y.1 ≤ best.1 := by
        intro y hy
        rcases List.mem_cons.1 hy with rfl | hy'
        · exact hcle
        · rcases List.mem_cons.1 hy' with rfl | hy''
          · exact hxle
          · exact hall y (List.mem_cons_of_mem _ hy'')
      have hfold' : (x :: xs).foldl (fun b x => if b.1 < x.1 then x else b) c = best := by
        rw [List.foldl_cons]
        exact hfold
      by_cases hcx : c.1 < x.1
      · rw [if_pos hcx] at hdec
        refine ⟨c :: pre, best, post, by rw [List.cons_append, ← hdec], hfold', ?_, hall'⟩
        intro y hy
        rcases List.mem_cons.1 hy with rfl | hy'
        · exact lt_of_lt_of_le hcx hxle
        · exact hpre y hy'
      · rw [if_neg hcx] at hdec
        cases pre with
        | nil =>
            simp only [List.nil_append, List.cons.injEq] at hdec
            obtain ⟨rfl, rfl⟩ := hdec
            exact ⟨[], c, x :: xs, rfl, hfold', by simp, hall'⟩
        | cons p ps =>
            simp only [List.cons_append, List.cons.injEq] at hdec
            obtain ⟨rfl, hxs⟩ := hdec
            refine ⟨c :: x :: ps, best, post, ?_, hfold', ?_, hall'⟩
            · rw [hxs]
              simp
            · intro y hy
              rcases List.mem_cons.1 hy with rfl | hy'
              · exact hpre y (List.mem_cons_self _ _)
              · rcases List.mem_cons.1 hy' with rfl | hy''
                · exact lt_of_le_of_lt (le_of_not_lt hcx) (hpre c (List.mem_cons_self _ _))
                · exact hpre y (List.mem_cons_of_mem _ hy'')

lemma lyapLoop_eq (ev : String → Except PyErr ℚ) (dt : ℚ) :
    ∀ (names : List String) (vs : List ℚ) (hbase hcur : PState),
      evalList ev names = .ok vs → names.Nodup →
      (∀ n ∈ names, ∀ d, getD hcur n d = getD hbase n d) →
      lyapLoop ev dt names hcur
        = .ok (lyapCandidates dt hbase names vs, histWriteAll hcur names vs) := by
  intro names
  induction names with
  | nil =>
      intro vs hbase hcur hev _ _
      simp only [evalList] at hev
      cases hev
      rfl
  | cons n ns ih =>
      intro vs hbase hcur hev hnd hag
      simp only [evalList] at hev
      cases hn : ev n with
      | error e => rw [hn] at hev; cases hev
      | ok v =>
          rw [hn] at hev
          cases hns : evalList ev ns with
          | error e => rw [hns] at hev; cases hev
          | ok ws =>
              rw [hns] at hev
              cases hev
              rw [List.nodup_cons] at hnd
              have hag' : ∀ m ∈ ns, ∀ d, getD (histSet hcur n v) m d = getD hbase m d := by
                intro m hm d
                have hnm : n ≠ m := by
                  intro he
                  rw [he] at hnd
                  exact hnd.1 hm
                rw [getD_histSet_ne _ _ _ _ _ hnm]
                exact hag m (List.mem_cons_of_mem _ hm) d
              have hrec := ih ws hbase (histSet hcur n v) hns hnd.2 hag'
              simp only [lyapLoop, hn, hrec, lyapCandidates, List.zipWith_cons_cons,
                histWriteAll, hag n (List.mem_cons_self n ns) v]

lemma lyapCandidates_nil_hist (dt : ℚ) :
    ∀ (names : List String) (vs : List ℚ),
      lyapCandidates dt [] names vs = List.zipWith (fun n v => (v, n)) names vs := by
  intro names vs
  simp [lyapCandidates, getD_nil]

/-- Two leaf goals for the Lyapunov statefulness scenario: A with constant
value 1, B with constant value 1.1. -/
def lyapGraph : GoalGraph := [("A", leafNode 1 1), ("B", leafNode 1 (11/10))]

/-- A Lyapunov-mode arbitrator whose history already records value 0.5 for
goal A (as an earlier call would have left behind). -/
def lyapArb : Arbitrator :=
  { goals := ["A", "B"], mode := "lyapunov", prev_values := [("A", 1/2)] }

/-- Three leaf goals (values 1, 1.1, 0.5) for the n-goal Lyapunov witness. -/
def lyap3Graph : GoalGraph :=
  [("A", leafNode 1 1), ("B", leafNode 1 (11/10)), ("C", leafNode 1 (1/2))]

/-- A three-goal Lyapunov-mode arbitrator with a seeded history entry. -/
def lyap3Arb : Arbitrator :=
  { goals := ["A", "B", "C"], mode := "lyapunov", prev_values := [("A", 1/2)] }

/-- C9: (1) for every candidate goal list (distinct names, all values
evaluating to `vs`), Lyapunov arbitration scores each goal as
`current + 1.0 * max(0, v_dot)` with `v_dot = (current - previous)/Δt`,
the previous value read from the stored history defaulting to the current
value (the `lyapCandidates` list), returns a goal whose score is maximal —
the first such goal in input order — and replaces the history by every
goal's current value (`histWriteAll`).  (2) On an empty (fresh) history
every score degenerates to the current value alone (zero derivative).
(3) The new history maps each goal's name to its current value.
(4) Two successive calls with identical inputs can return different
goals: with history {A: 0.5}, A (rising to 1) beats B (steady at 1.1),
while the recorded history makes the identical second call return B. -/
theorem c9_lyapunov_score_history_statefulness :
    (∀ (fuel : Nat) (g : GoalGraph) (arb : Arbitrator) (t : ℚ) (st : PState) (vs : List ℚ),
      arb.goals.Nodup → arb.goals ≠ [] →
      evalList (fun n => effective_value fuel g n t st) arb.goals = .ok vs →
      ∃ pre best post,
        lyapCandidates arb.delta_t arb.prev_values arb.goals vs = pre ++ best :: post
        ∧ lyapunov_arbitrate fuel g arb t st
            = .ok (some best.2, histWriteAll arb.prev_values arb.goals vs)
        ∧ (∀ c ∈ pre, c.1 < best.1)
        ∧ (∀ c ∈ lyapCandidates arb.delta_t arb.prev_values arb.goals vs, c.1 ≤ best.1))
    ∧ (∀ (dt : ℚ) (names : List String) (vs : List ℚ),
        lyapCandidates dt [] names vs = List.zipWith (fun n v => (v, n)) names vs)
    ∧ (∀ (names : List String) (vs : List ℚ) (h : PState) (i : Nat) (n : String) (v d : ℚ),
        names.Nodup → names.get? i = some n → vs.get? i = some v →
        getD (histWriteAll h names vs) n d = v)
    ∧ lyapunov_arbitrate 1 lyapGraph lyapArb 0 []
        = .ok (some "A", [("A", 1), ("B", 11/10)])
    ∧ lyapunov_arbitrate 1 lyapGraph { lyapArb with prev_values := [("A", 1), ("B", 11/10)] }
          0 []
        = .ok (some "B", [("A", 1), ("B", 11/10)]) := by
  have hA : effective_value 1 lyapGraph "A" 0 [] = .ok 1 := by
    have h := effective_value_leaf 0 lyapGraph "A" 1 1 0 [] rfl
    norm_num at h
    exact h
  have hB : effective_value 1 lyapGraph "B" 0 [] = .ok (11/10) := by
    have h := effective_value_leaf 0 lyapGraph "B" 1 (11/10) 0 [] rfl
    norm_num at h
    exact h
  have hsAB : ("A" : String) ≠ "B" := by decide
  refine ⟨?_, lyapCandidates_nil_hist, getD_histWriteAll, ?_, ?_⟩
  · intro fuel g arb t st vs hnd hne hvals
    have hempty : arb.goals.isEmpty = false := by
      cases h : arb.goals with
      | nil => exact absurd h hne
      | cons a as => rfl
    have hloop := lyapLoop_eq (fun n => effective_value fuel g n t st) arb.delta_t
      arb.goals vs arb.prev_values arb.prev_values hvals hnd (fun _ _ _ => rfl)
    have hclen : (lyapCandidates arb.delta_t arb.prev_values arb.goals vs).length
        = arb.goals.length := by
      have hvlen : vs.length = arb.goals.length := evalList_length _ _ _ hvals
      simp [lyapCandidates, hvlen]
    obtain ⟨c0, rest, hc⟩ : ∃ c0 rest,
        lyapCandidates arb.delta_t arb.prev_values arb.goals vs = c0 :: rest := by
      cases h : lyapCandidates arb.delta_t arb.prev_values arb.goals vs with
      | nil =>
          rw [h] at hclen
          exact absurd (List.length_eq_zero.1 hclen.symm) hne
      | cons a as => exact ⟨a, as, rfl⟩
    obtain ⟨pre, best, post, hdec, hfold, hpre, hall⟩ := pickBest_first_max rest c0
    refine ⟨pre, best, post, by rw [hc, hdec], ?_, hpre, by rw [hc]; exact hall⟩
    simp only [lyapunov_arbitrate, hempty, Bool.false_eq_true, if_false, hloop]
    rw [hc, pickBest, hfold]
  · have h := lyap_pair 1 lyapGraph lyapArb 0 [] "A" "B" 1 (11/10) rfl hsAB
      (by norm_num [lyapArb]) hA hB
    rw [h]
    norm_num [lyapArb, getD_cons, getD_nil, histSet, hsAB, max_def]
  · have h := lyap_pair 1 lyapGraph { lyapArb with prev_values := [("A", 1), ("B", 11/10)] }
      0 [] "A" "B" 1 (11/10) rfl hsAB (by norm_num [lyapArb]) hA hB
    rw [h]
    norm_num [lyapArb, getD_cons, getD_nil, histSet, hsAB, max_def]

/-- C9 witness: the general n-goal Lyapunov characterization applied to
the concrete three-goal arbitrator with a seeded history. -/
theorem c9_witness :
    ∃ pre best post,
      lyapCandidates lyap3Arb.delta_t lyap3Arb.prev_values lyap3Arb.goals [1, 11/10, 1/2]
          = pre ++ best :: post
      ∧ lyapunov_arbitrate 1 lyap3Graph lyap3Arb 0 []
          = .ok (some best.2, histWriteAll lyap3Arb.prev_values lyap3Arb.goals [1, 11/10, 1/2])
      ∧ (∀ c ∈ pre, c.1 < best.1)
      ∧ (∀ c ∈ lyapCandidates lyap3Arb.delta_t lyap3Arb.prev_values lyap3Arb.goals
            [1, 11/10, 1/2], c.1 ≤ best.1) :=
  c9_lyapunov_score_history_statefulness.1 1 lyap3Graph lyap3Arb 0 [] [1, 11/10, 1/2]
    (by decide) (by decide)
    (by
      have h1 := effective_value_leaf 0 lyap3Graph "A" 1 1 0 [] rfl
      have h2 := effective_value_leaf 0 lyap3Graph "B" 1 (11/10) 0 [] rfl
      have h3 := effective_value_leaf 0 lyap3Graph "C" 1 (1/2) 0 [] rfl
      norm_num at h1 h2 h3
      simp [lyap3Arb, evalList, h1, h2, h3])

/-- C10: `GoalArbitrator.select` on a value map with exactly two goals
(1) overwrites the arbitrator's goal list with those two goals and returns
exactly the single goal chosen by `nash_arbitrate` at t = 0.0 with an
empty state dict; (2) the result is invariant under the supplied values
and the configured mode and temperature; (3) the result is never a
probability distribution. -/
theorem c10_select_two_goals_ignores_mode_and_values (e e' : ℚ → ℚ) (fuel : Nat)
    (g : GoalGraph) (arb : Arbitrator) (m m' : String) (T T' : ℚ)
    (n1 n2 : String) (v1 v2 w1 w2 : ℚ) :
    (select e fuel g { arb with mode := m, temperature := T } [(n1, v1), (n2, v2)]
      = match nash_arbitrate fuel g { arb with mode := m, temperature := T, goals := [n1, n2] } 0 [] with
        | .error er => .error er
        | .ok r => .ok (selResOfOpt r,
            { arb with mode := m, temperature := T, goals := [n1, n2] }))
    ∧ ((select e fuel g { arb with mode := m, temperature := T }
          [(n1, v1), (n2, v2)]).map Prod.fst
        = (select e' fuel g { arb with mode := m', temperature := T' }
            [(n1, w1), (n2, w2)]).map Prod.fst)
    ∧ (∀ ps arb2, select e fuel g { arb with mode := m, temperature := T }
        [(n1, v1), (n2, v2)] ≠ .ok (.distRes ps, arb2)) := by
  have hsel : ∀ (f : ℚ → ℚ) (mm : String) (TT : ℚ) (x y : ℚ),
      select f fuel g { arb with mode := mm, temperature := TT } [(n1, x), (n2, y)]
        = match nash_arbitrate fuel g { arb with mode := mm, temperature := TT, goals := [n1, n2] } 0 [] with
          | .error er => .error er
          | .ok r => .ok (selResOfOpt r,
              { arb with mode := mm, temperature := TT, goals := [n1, n2] }) := by
    intro f mm TT x y
    simp [select]
  have hnash : ∀ (mm : String) (TT : ℚ),
      nash_arbitrate fuel g { arb with mode := mm, temperature := TT, goals := [n1, n2] } 0 []
        = nash_arbitrate fuel g { arb with mode := m, temperature := T, goals := [n1, n2] }
            0 [] := by
    intro mm TT
    simp [nash_arbitrate]
  refine ⟨hsel e m T v1 v2, ?_, ?_⟩
  · rw [hsel e m T v1 v2, hsel e' m' T' w1 w2, hnash m' T']
    cases nash_arbitrate fuel g
        { arb with mode := m, temperature := T, goals := [n1, n2] } 0 [] with
    | error er => rfl
    | ok r => rfl
  · intro ps arb2
    rw [hsel e m T v1 v2]
    cases nash_arbitrate fuel g
        { arb with mode := m, temperature := T, goals := [n1, n2] } 0 [] with
    | error er => simp
    | ok r => cases r <;> simp [selResOfOpt]

/-- C10 witness: the never-a-distribution component at a concrete input. -/
theorem c10_witness :
    select (fun _ => 1) 1 abGraph { ({ goals := [] } : Arbitrator) with mode := "softmax", temperature := 1 } [("A", 5), ("B", 7)]
      ≠ .ok (.distRes [], { ({ goals := [] } : Arbitrator) with goals := ["A", "B"] }) :=
  (c10_select_two_goals_ignores_mode_and_values (fun _ => 1) (fun _ => 1) 1 abGraph
    { goals := [] } "softmax" "softmax" 1 1 "A" "B" 5 7 5 7).2.2 []
    { ({ goals := [] } : Arbitrator) with goals := ["A", "B"] }

end RGSA
